import Mathlib

/-!
Shallow embedding of `deduce.py`, a heuristic, budget-bounded backtracking
prover for intuitionistic propositional logic over atoms and the binary
connectives AND (`&`), OR (`+`), IMPLIES (`->`), together with a reference
definition of intuitionistic derivability and theorems relating the two.

Modelling conventions:
* Python's dynamically-tagged `Tree` (tag `':c'` for an atom `c`, or one of
  `'&'`, `'+'`, `'->'` with exactly two kids) becomes the inductive `Tree`
  below; `Tree.matches` is the structural equality test of the source.
* Python floats are modelled as exact rationals `ℚ` (all weights are dyadic
  and the quantities only feed order comparisons).
* A Python dict from atom labels to weights is modelled as a total function
  `Char → ℚ` (zero off the key set) together with its key set, which for the
  profiles produced by `atom_counts` is exactly `Tree.atoms`.
* `count_overlap` divides by the size of the key union; on an empty union the
  Python code raises `ZeroDivisionError`, modelled by returning `none`.
* General recursion of `can_prove` is embedded with an explicit fuel
  parameter (`can_proveFuel`); since every recursive call strictly decreases
  the energy, fuel equal to the energy computes the function exactly
  (`Deduce.can_prove_terminates` below proves fuel beyond the energy is
  irrelevant).  `can_prove t gs e := can_proveFuel e t gs e`.
* Python's `sorted(pairs, reverse=True)` on the pairs `(score, index)` (all
  indices distinct) produces the unique permutation that is strictly
  descending in the lexicographic order on `(score, index)`; we obtain the
  same list with `List.insertionSort` under the total relation `sortRel`.
* The display/trace calls of the source only write to the screen and never
  influence the returned boolean; they are dropped.
-/

namespace Deduce

/-- Formula syntax: atoms (single characters in the source) and the three
binary connectives of `deduce.py` (tags `'&'`, `'+'`, `'->'`). -/
inductive Tree : Type where
  | atom : Char → Tree
  | and : Tree → Tree → Tree
  | or : Tree → Tree → Tree
  | imp : Tree → Tree → Tree
deriving DecidableEq, Repr

/-- Embedding of `Tree.matches` from the source: same tag at every node, same
children recursively, in order. -/
def Tree.matches : Tree → Tree → Bool
  | .atom a, .atom b => a == b
  | .and a b, .and c d => a.matches c && b.matches d
  | .or a b, .or c d => a.matches c && b.matches d
  | .imp a b, .imp c d => a.matches c && b.matches d
  | _, _ => false

/-- Tag test `g.tag == '&'` of the source. -/
def Tree.isAnd : Tree → Bool
  | .and _ _ => true
  | _ => false

/-- Tag test `g.tag == '+'` of the source. -/
def Tree.isOr : Tree → Bool
  | .or _ _ => true
  | _ => false

/-- Key set of the dict produced by `atom_counts`: the atoms occurring in the
formula. -/
def Tree.atoms : Tree → Finset Char
  | .atom a => {a}
  | .and l r => l.atoms ∪ r.atoms
  | .or l r => l.atoms ∪ r.atoms
  | .imp l r => l.atoms ∪ r.atoms

/-- Embedding of `atom_counts`: the weighted atom-occurrence profile, as a
total function (zero outside `Tree.atoms`).  Weights per the source:
`&` uses `(1, 1)`, `+` uses `(1/2, 1/2)`, `->` uses `(1/4, 3/4)`. -/
def atom_counts : Tree → Char → ℚ
  | .atom a, k => if k = a then 1 else 0
  | .and l r, k => 1 * atom_counts l k + 1 * atom_counts r k
  | .or l r, k => (1/2) * atom_counts l k + (1/2) * atom_counts r k
  | .imp l r, k => (1/4) * atom_counts l k + (3/4) * atom_counts r k

/-- Embedding of `count_overlap`: over the union of the two key sets, the sum
of pairwise products divided by the number of keys.  The Python code raises
`ZeroDivisionError` when the union is empty; this is modelled by `none`. -/
def count_overlap (aa : Char → ℚ) (ka : Finset Char) (bb : Char → ℚ)
    (kb : Finset Char) : Option ℚ :=
  if (ka ∪ kb).card = 0 then none
  else some ((∑ k ∈ ka ∪ kb, aa k * bb k) / ((ka ∪ kb).card : ℚ))

/-- Overlap score between two formulas, as computed at every call site inside
`can_prove` (`count_overlap(atom_counts(t), atom_counts(g))`).  The `getD 0`
is never exercised: the key union of two formula profiles is nonempty
(theorem `atom_counts_profile`). -/
def overlapScore (t g : Tree) : ℚ :=
  (count_overlap (atom_counts t) t.atoms (atom_counts g) g.atoms).getD 0

/-- Step 0 of `can_prove`: hypotheses whose top tag is `&` are removed and
their two children appended, one level only, per the source
(non-`&` hypotheses keep their order, then the pairs in `&`-occurrence
order). -/
def flattenGivens (givens : List Tree) : List Tree :=
  givens.filter (fun g => !g.isAnd) ++
    (givens.filter Tree.isAnd).flatMap fun g =>
      match g with
      | .and a b => [a, b]
      | _ => []

/-- Scored hypothesis list: the pairs `(count_overlap(act, atom_counts(g)), i)`
built in step 1 of `can_prove`, with the hypothesis itself carried along
(the source recovers it as `givens[i]`). -/
def scoredGivens (tree : Tree) (givens : List Tree) : List (ℚ × ℕ × Tree) :=
  givens.enum.map fun p => (overlapScore tree p.2, p.1, p.2)

/-- Order in which Python's `sorted(pairs, reverse=True)` emits the scored
pairs: `a` may precede `b` iff `a`'s score is larger, or the scores are equal
and `a`'s original index is larger (descending lexicographic order on the
pair `(score, index)`; note the tie-break is by *descending* original
index). -/
def sortRel (a b : ℚ × ℕ × Tree) : Prop :=
  b.1 < a.1 ∨ (a.1 = b.1 ∧ b.2.1 ≤ a.2.1)

instance : DecidableRel sortRel := fun a b => by
  unfold sortRel; exact inferInstance

instance : IsTotal (ℚ × ℕ × Tree) sortRel where
  total a b := by
    rcases lt_trichotomy a.1 b.1 with h | h | h
    · exact Or.inr (Or.inl h)
    · rcases Nat.le_total b.2.1 a.2.1 with h2 | h2
      · exact Or.inl (Or.inr ⟨h, h2⟩)
      · exact Or.inr (Or.inr ⟨h.symm, h2⟩)
    · exact Or.inl (Or.inl h)

instance : IsTrans (ℚ × ℕ × Tree) sortRel where
  trans a b c hab hbc := by
    rcases hab with h1 | ⟨h1, h1i⟩ <;> rcases hbc with h2 | ⟨h2, h2i⟩
    · exact Or.inl (h2.trans h1)
    · exact Or.inl (h2 ▸ h1)
    · exact Or.inl (h1 ▸ h2)
    · exact Or.inr ⟨h1.trans h2, h2i.trans h1i⟩

/-- Step 1 of `can_prove`: sort the hypotheses by descending overlap score
against the goal, ties broken by descending original position, and project
the formulas back out (`givens = [givens[i] for _, i in idxs]`). -/
def sortGivens (tree : Tree) (givens : List Tree) : List Tree :=
  (List.insertionSort sortRel (scoredGivens tree givens)).map fun p => p.2.2

/-- Body of `easies()` from the source, with `recur` standing for the
recursive call and `en = energy - 1` supplied by the caller:
atom goals use the axiom rule, `->`/`+`/`&` goals their introduction rule
(the second conjunct of an `&` goal additionally receives the first). -/
def easyRule (recur : Tree → List Tree → ℕ → Bool) (tree : Tree)
    (gs : List Tree) (en : ℕ) : Bool :=
  match tree with
  | .atom a => gs.any fun g =>
      match g with
      | .atom b => b == a
      | _ => false
  | .imp hypo conc => recur conc (hypo :: gs) en
  | .or lft rht => recur lft gs en || recur rht gs en
  | .and fst snd => recur fst gs en && recur snd (gs ++ [fst]) en

/-- Slice candidates: hypotheses whose top tag is `->` and whose conclusion
side structurally matches the goal. -/
def sliceCands (tree : Tree) (gs : List Tree) : List Tree :=
  gs.filter fun g =>
    match g with
    | .imp _ conc => conc.matches tree
    | _ => false

/-- Slice (modus ponens) loop of the source: each candidate `hypo -> conc` is
tried in order with energy `energy - 1` when there is exactly one candidate
and `energy - 2` otherwise; the hypothesis list is passed unchanged. -/
def sliceRule (recur : Tree → List Tree → ℕ → Bool) (tree : Tree)
    (gs : List Tree) (energy : ℕ) : Bool :=
  let cands := sliceCands tree gs
  let en := energy - (if cands.length = 1 then 1 else 2)
  cands.any fun g =>
    match g with
    | .imp hypo _ => recur hypo gs en
    | _ => false

/-- Branch energy of a case split, per the source:
`int(energy * 2.0/3)` when the overlap of the goal with the disjunct exceeds
`0.75`, else `int(energy * 1.0/3)` (integer floor division). -/
def splitEnergy (tree b : Tree) (energy : ℕ) : ℕ :=
  if overlapScore tree b > 3/4 then energy * 2 / 3 else energy * 1 / 3

/-- Case-split loop of the source: each `+`-tagged hypothesis, in order, is
removed from the list and both of its disjuncts must be proved (each disjunct
prepended to the remaining hypotheses, with its own allocated energy). -/
def splitRule (recur : Tree → List Tree → ℕ → Bool) (tree : Tree)
    (gs : List Tree) (energy : ℕ) : Bool :=
  (gs.enum.filter fun p => p.2.isOr).any fun p =>
    match p.2 with
    | .or lft rht =>
        ([lft, rht] : List Tree).all fun b =>
          recur tree (b :: gs.eraseIdx p.1) (splitEnergy tree b energy)
    | _ => false

/-- Embedding of `Prover.can_prove`, with an explicit structural fuel
parameter standing for the call depth (fuel at least the energy suffices,
see `can_prove_terminates`).  Per the source: energy check, conjunction
flattening, relevance sort, then the introduction rules, the slice loop and
the split loop, the first success winning. -/
def can_proveFuel : ℕ → Tree → List Tree → ℕ → Bool
  | 0, _, _, _ => false
  | f + 1, tree, givens, energy =>
    if energy = 0 then false
    else
      let gs := sortGivens tree (flattenGivens givens)
      easyRule (can_proveFuel f) tree gs (energy - 1) ||
        sliceRule (can_proveFuel f) tree gs energy ||
        splitRule (can_proveFuel f) tree gs energy

/-- The prover: `can_proveFuel` run with fuel equal to the energy, which is
always enough since every recursive call strictly decreases the energy. -/
def can_prove (tree : Tree) (givens : List Tree) (energy : ℕ) : Bool :=
  can_proveFuel energy tree givens energy

/-!
Embedding of `LogicParser` from the source, on the character list of the
input string, with a structural fuel parameter bounding the call depth (each
parsing function decrements it once; `4 * length + 4` is ample since every
four nested calls consume at least one character).  A failed Python `assert`
(or `fact` falling through) is modelled by `none`.  Grammar per the source:
`expr := disj ("->" expr)?`, `disj := conj ("+" disj)?`,
`conj := fact ("&" conj)?`, `fact := ATOM | "(" expr ")"` with single-letter
atoms, all right-associative.
-/

mutual

/-- Embedding of `LogicParser.expr`. -/
def pExpr : ℕ → List Char → Option (Tree × List Char)
  | 0, _ => none
  | fuel + 1, ts =>
    match pDisj fuel ts with
    | none => none
    | some (head, ts1) =>
      match ts1 with
      | '-' :: rest =>
        match rest with
        | '>' :: ts2 =>
          match pExpr fuel ts2 with
          | none => none
          | some (tail, ts3) => some (.imp head tail, ts3)
        | _ => none
      | _ => some (head, ts1)

/-- Embedding of `LogicParser.disj`. -/
def pDisj : ℕ → List Char → Option (Tree × List Char)
  | 0, _ => none
  | fuel + 1, ts =>
    match pConj fuel ts with
    | none => none
    | some (head, ts1) =>
      match ts1 with
      | '+' :: ts2 =>
        match pDisj fuel ts2 with
        | none => none
        | some (tail, ts3) => some (.or head tail, ts3)
      | _ => some (head, ts1)

/-- Embedding of `LogicParser.conj`. -/
def pConj : ℕ → List Char → Option (Tree × List Char)
  | 0, _ => none
  | fuel + 1, ts =>
    match pFact fuel ts with
    | none => none
    | some (head, ts1) =>
      match ts1 with
      | '&' :: ts2 =>
        match pConj fuel ts2 with
        | none => none
        | some (tail, ts3) => some (.and head tail, ts3)
      | _ => some (head, ts1)

/-- Embedding of `LogicParser.fact`. -/
def pFact : ℕ → List Char → Option (Tree × List Char)
  | 0, _ => none
  | fuel + 1, ts =>
    match ts with
    | [] => none
    | c :: rest =>
      if c.isAlpha then some (.atom c, rest)
      else if c = '(' then
        match pExpr fuel rest with
        | none => none
        | some (r, ts1) =>
          match ts1 with
          | ')' :: ts2 => some (r, ts2)
          | _ => none
      else none

end

/-- Embedding of `tree_from_str`: parse an expression from the start of the
string (trailing characters are ignored, as in the source). -/
def tree_from_str (ss : String) : Option Tree :=
  match pExpr (4 * ss.length + 4) ss.toList with
  | some (t, _) => some t
  | none => none

/-!
Reference definition of intuitionistic propositional derivability (standard
natural deduction NJ over atoms and the connectives `&`, `+`, `->`), against
which the prover's positive answers are proved sound.  Contexts are lists of
hypotheses; the hypothesis rule admits any member, so weakening and exchange
are derivable.
-/

/-- Intuitionistic natural deduction: `Derives Γ g` says the goal `g` is
derivable from the hypothesis list `Γ`. -/
inductive Derives : List Tree → Tree → Prop where
  | hyp {Γ : List Tree} {g : Tree} : g ∈ Γ → Derives Γ g
  | andI {Γ : List Tree} {a b : Tree} :
      Derives Γ a → Derives Γ b → Derives Γ (.and a b)
  | andE1 {Γ : List Tree} {a b : Tree} : Derives Γ (.and a b) → Derives Γ a
  | andE2 {Γ : List Tree} {a b : Tree} : Derives Γ (.and a b) → Derives Γ b
  | orI1 {Γ : List Tree} {a b : Tree} : Derives Γ a → Derives Γ (.or a b)
  | orI2 {Γ : List Tree} {a b : Tree} : Derives Γ b → Derives Γ (.or a b)
  | orE {Γ : List Tree} {a b c : Tree} :
      Derives Γ (.or a b) → Derives (a :: Γ) c → Derives (b :: Γ) c →
      Derives Γ c
  | impI {Γ : List Tree} {a b : Tree} :
      Derives (a :: Γ) b → Derives Γ (.imp a b)
  | impE {Γ : List Tree} {a b : Tree} :
      Derives Γ (.imp a b) → Derives Γ a → Derives Γ b

/-- Weakening: derivability is preserved when the context grows (as a set). -/
theorem Derives.weaken {Γ Δ : List Tree} {g : Tree}
    (h : Derives Γ g) (hsub : ∀ x ∈ Γ, x ∈ Δ) : Derives Δ g := by
  induction h generalizing Δ with
  | hyp hmem => exact .hyp (hsub _ hmem)
  | andI _ _ ih1 ih2 => exact .andI (ih1 hsub) (ih2 hsub)
  | andE1 _ ih => exact .andE1 (ih hsub)
  | andE2 _ ih => exact .andE2 (ih hsub)
  | orI1 _ ih => exact .orI1 (ih hsub)
  | orI2 _ ih => exact .orI2 (ih hsub)
  | orE _ _ _ ih ihl ihr =>
      refine .orE (ih hsub) (ihl ?_) (ihr ?_) <;>
        · intro x hx
          rcases List.mem_cons.mp hx with h | h
          · exact h ▸ List.mem_cons_self _ _
          · exact List.mem_cons_of_mem _ (hsub _ h)
  | impI _ ih =>
      refine .impI (ih ?_)
      intro x hx
      rcases List.mem_cons.mp hx with h | h
      · exact h ▸ List.mem_cons_self _ _
      · exact List.mem_cons_of_mem _ (hsub _ h)
  | impE _ _ ih1 ih2 => exact .impE (ih1 hsub) (ih2 hsub)

/-- Cut for whole contexts: if every hypothesis of `Δ` is derivable from `Γ`
then everything derivable from `Δ` is derivable from `Γ`. -/
theorem Derives.cut_context {Δ : List Tree} {g : Tree}
    (h : Derives Δ g) :
    ∀ {Γ : List Tree}, (∀ x ∈ Δ, Derives Γ x) → Derives Γ g := by
  induction h with
  | hyp hmem => exact fun hall => hall _ hmem
  | andI _ _ ih1 ih2 => exact fun hall => .andI (ih1 hall) (ih2 hall)
  | andE1 _ ih => exact fun hall => .andE1 (ih hall)
  | andE2 _ ih => exact fun hall => .andE2 (ih hall)
  | orI1 _ ih => exact fun hall => .orI1 (ih hall)
  | orI2 _ ih => exact fun hall => .orI2 (ih hall)
  | orE _ _ _ ih ihl ihr =>
      intro Γ hall
      refine .orE (ih hall) (ihl ?_) (ihr ?_) <;>
        · intro x hx
          rcases List.mem_cons.mp hx with h | h
          · exact h ▸ .hyp (List.mem_cons_self _ _)
          · exact (hall _ h).weaken fun y hy => List.mem_cons_of_mem _ hy
  | impI _ ih =>
      intro Γ hall
      refine .impI (ih ?_)
      intro x hx
      rcases List.mem_cons.mp hx with h | h
      · exact h ▸ .hyp (List.mem_cons_self _ _)
      · exact (hall _ h).weaken fun y hy => List.mem_cons_of_mem _ hy
  | impE _ _ ih1 ih2 => exact fun hall => .impE (ih1 hall) (ih2 hall)

/-- Structural matching decides equality of formulas. -/
theorem matches_iff {a b : Tree} : a.matches b = true ↔ a = b := by
  induction a generalizing b with
  | atom c => cases b <;> simp [Tree.matches]
  | and l r ihl ihr => cases b <;> simp [Tree.matches, ihl, ihr]
  | or l r ihl ihr => cases b <;> simp [Tree.matches, ihl, ihr]
  | imp l r ihl ihr => cases b <;> simp [Tree.matches, ihl, ihr]

/-- Every member of the flattened hypothesis list is derivable from the
original hypotheses: it is either an original hypothesis or one half of a
conjunctive one. -/
theorem mem_flattenGivens_derives {givens : List Tree} {x : Tree}
    (hx : x ∈ flattenGivens givens) : Derives givens x := by
  unfold flattenGivens at hx
  rcases List.mem_append.mp hx with h | h
  · exact .hyp (List.mem_of_mem_filter h)
  · rcases List.mem_flatMap.mp h with ⟨g, hg, hxg⟩
    have hgmem : g ∈ givens := List.mem_of_mem_filter hg
    cases g with
    | and a b =>
        rcases List.mem_cons.mp hxg with h1 | h1
        · exact h1 ▸ Derives.andE1 (.hyp hgmem)
        · have : x = b := by simpa using h1
          exact this ▸ Derives.andE2 (.hyp hgmem)
    | atom c => simp at hxg
    | or a b => simp at hxg
    | imp a b => simp at hxg

/-- The relevance sort permutes the hypothesis list. -/
theorem sortGivens_perm (tree : Tree) (gs : List Tree) :
    (sortGivens tree gs).Perm gs := by
  have h1 := (List.perm_insertionSort sortRel (scoredGivens tree gs)).map
    fun p : ℚ × ℕ × Tree => p.2.2
  have h2 : (scoredGivens tree gs).map (fun p : ℚ × ℕ × Tree => p.2.2) = gs := by
    unfold scoredGivens
    rw [List.map_map]
    exact List.enum_map_snd gs
  rw [h2] at h1
  exact h1

/-- Membership is invariant under the relevance sort. -/
theorem mem_sortGivens {tree : Tree} {gs : List Tree} {x : Tree} :
    x ∈ sortGivens tree gs ↔ x ∈ gs :=
  (sortGivens_perm tree gs).mem_iff

/-- Every hypothesis of the working context built by one invocation of
`can_prove` (flatten, then sort) is derivable from the original context. -/
theorem mem_context_derives {tree : Tree} {givens : List Tree} {x : Tree}
    (hx : x ∈ sortGivens tree (flattenGivens givens)) : Derives givens x :=
  mem_flattenGivens_derives (mem_sortGivens.mp hx)

/-- Soundness of the introduction rules, given soundness of the recursive
calls. -/
theorem easyRule_sound {recur : Tree → List Tree → ℕ → Bool}
    (hrec : ∀ t g e, recur t g e = true → Derives g t)
    {tree : Tree} {gs : List Tree} {en : ℕ}
    (h : easyRule recur tree gs en = true) : Derives gs tree := by
  cases tree with
  | atom a =>
      rcases List.any_eq_true.mp h with ⟨g, hg, hmatch⟩
      cases g with
      | atom b =>
          have : b = a := by simpa using hmatch
          exact .hyp (this ▸ hg)
      | and _ _ => simp at hmatch
      | or _ _ => simp at hmatch
      | imp _ _ => simp at hmatch
  | imp hypo conc => exact .impI (hrec _ _ _ h)
  | or lft rht =>
      rcases Bool.or_eq_true _ _ |>.mp h with h1 | h1
      · exact .orI1 (hrec _ _ _ h1)
      · exact .orI2 (hrec _ _ _ h1)
  | and fst snd =>
      rcases Bool.and_eq_true _ _ |>.mp h with ⟨h1, h2⟩
      have d1 : Derives gs fst := hrec _ _ _ h1
      have d2 : Derives (gs ++ [fst]) snd := hrec _ _ _ h2
      refine .andI d1 (d2.cut_context ?_)
      intro x hx
      rcases List.mem_append.mp hx with h3 | h3
      · exact .hyp h3
      · have : x = fst := by simpa using h3
        exact this ▸ d1

/-- Soundness of the slice (modus ponens) loop, given soundness of the
recursive calls. -/
theorem sliceRule_sound {recur : Tree → List Tree → ℕ → Bool}
    (hrec : ∀ t g e, recur t g e = true → Derives g t)
    {tree : Tree} {gs : List Tree} {energy : ℕ}
    (h : sliceRule recur tree gs energy = true) : Derives gs tree := by
  unfold sliceRule at h
  rcases List.any_eq_true.mp h with ⟨g, hg, hcall⟩
  have hcand : g ∈ sliceCands tree gs := hg
  have hmem : g ∈ gs := List.mem_of_mem_filter hcand
  have hfilt := List.of_mem_filter hcand
  cases g with
  | imp hypo conc =>
      have hconc : conc = tree := matches_iff.mp (by simpa using hfilt)
      have dh : Derives gs hypo := hrec _ _ _ hcall
      exact hconc ▸ Derives.impE (.hyp hmem) dh
  | atom _ => simp at hfilt
  | and _ _ => simp at hfilt
  | or _ _ => simp at hfilt

/-- Soundness of the case-split loop, given soundness of the recursive
calls. -/
theorem splitRule_sound {recur : Tree → List Tree → ℕ → Bool}
    (hrec : ∀ t g e, recur t g e = true → Derives g t)
    {tree : Tree} {gs : List Tree} {energy : ℕ}
    (h : splitRule recur tree gs energy = true) : Derives gs tree := by
  unfold splitRule at h
  rcases List.any_eq_true.mp h with ⟨p, hp, hcall⟩
  have hmem : p ∈ gs.enum := List.mem_of_mem_filter hp
  obtain ⟨i, g⟩ := p
  have hig := List.mem_enum hmem
  cases g with
  | or lft rht =>
      have hgmem : Tree.or lft rht ∈ gs := by
        rcases hig with ⟨hlt, hget⟩
        exact hget ▸ List.getElem_mem hlt
      have hboth := List.all_eq_true.mp hcall
      have dl : Derives (lft :: gs.eraseIdx i) tree :=
        hrec _ _ _ (hboth lft (by simp))
      have dr : Derives (rht :: gs.eraseIdx i) tree :=
        hrec _ _ _ (hboth rht (by simp))
      refine Derives.orE (.hyp hgmem) (dl.weaken ?_) (dr.weaken ?_) <;>
        · intro x hx
          rcases List.mem_cons.mp hx with h1 | h1
          · exact h1 ▸ List.mem_cons_self _ _
          · exact List.mem_cons_of_mem _ (List.mem_of_mem_eraseIdx h1)
  | atom _ => simp at hcall
  | and _ _ => simp at hcall
  | imp _ _ => simp at hcall

/-- Soundness of the fuel-indexed prover: a positive answer at any fuel and
any energy yields an intuitionistic derivation. -/
theorem can_proveFuel_sound :
    ∀ (f : ℕ) (tree : Tree) (givens : List Tree) (energy : ℕ),
      can_proveFuel f tree givens energy = true → Derives givens tree := by
  intro f
  induction f with
  | zero => intro t g e h; simp [can_proveFuel] at h
  | succ f ih =>
      intro tree givens energy h
      rw [can_proveFuel] at h
      by_cases he : energy = 0
      · simp [he] at h
      · rw [if_neg he] at h
        have hctx : ∀ x ∈ sortGivens tree (flattenGivens givens),
            Derives givens x := fun x hx => mem_context_derives hx
        have hrec : ∀ t g e, (fun t g e => can_proveFuel f t g e) t g e = true →
            Derives g t := fun t g e hh => ih t g e hh
        rcases Bool.or_eq_true _ _ |>.mp h with h1 | h1
        · rcases Bool.or_eq_true _ _ |>.mp h1 with h2 | h2
          · exact (easyRule_sound hrec h2).cut_context hctx
          · exact (sliceRule_sound hrec h2).cut_context hctx
        · exact (splitRule_sound hrec h1).cut_context hctx

/-- Congruence over `List.any` for pointwise-equal predicates. -/
theorem any_congr_mem {α : Type} {l : List α} {p q : α → Bool}
    (h : ∀ x ∈ l, p x = q x) : l.any p = l.any q := by
  induction l with
  | nil => rfl
  | cons a l ih =>
      simp only [List.any_cons, h a (List.mem_cons_self _ _),
        ih fun x hx => h x (List.mem_cons_of_mem _ hx)]

/-- Monotonicity over `List.any`. -/
theorem any_mono_mem {α : Type} {l : List α} {p q : α → Bool}
    (h : ∀ x ∈ l, p x = true → q x = true) :
    l.any p = true → l.any q = true := by
  intro hp
  rcases List.any_eq_true.mp hp with ⟨x, hx, hpx⟩
  exact List.any_eq_true.mpr ⟨x, hx, h x hx hpx⟩

/-- Congruence over `List.all` for pointwise-equal predicates. -/
theorem all_congr_mem {α : Type} {l : List α} {p q : α → Bool}
    (h : ∀ x ∈ l, p x = q x) : l.all p = l.all q := by
  induction l with
  | nil => rfl
  | cons a l ih =>
      simp only [List.all_cons, h a (List.mem_cons_self _ _),
        ih fun x hx => h x (List.mem_cons_of_mem _ hx)]

/-- Monotonicity over `List.all`. -/
theorem all_mono_mem {α : Type} {l : List α} {p q : α → Bool}
    (h : ∀ x ∈ l, p x = true → q x = true) :
    l.all p = true → l.all q = true := by
  intro hp
  exact List.all_eq_true.mpr fun x hx => h x hx (List.all_eq_true.mp hp x hx)

/-- A call with zero energy returns false at once, whatever the fuel. -/
theorem can_proveFuel_zero_energy (f : ℕ) (t : Tree) (g : List Tree) :
    can_proveFuel f t g 0 = false := by
  cases f <;> simp [can_proveFuel]

/-- The slice charge is at least one. -/
theorem sliceCharge_pos (n : ℕ) : 1 ≤ (if n = 1 then 1 else 2) := by
  split <;> omega

/-- The split branch allocation is strictly below any positive energy. -/
theorem splitEnergy_lt {tree b : Tree} {energy : ℕ} (hpos : 0 < energy) :
    splitEnergy tree b energy < energy := by
  unfold splitEnergy
  split <;> omega

/-- The split branch allocation is monotone in the energy. -/
theorem splitEnergy_mono {tree b : Tree} {e e' : ℕ} (h : e ≤ e') :
    splitEnergy tree b e ≤ splitEnergy tree b e' := by
  unfold splitEnergy
  split <;> omega

/-- Congruence for the introduction-rule phase: only the value of the
recursive callee at the passed energy matters. -/
theorem easyRule_congr {r1 r2 : Tree → List Tree → ℕ → Bool}
    {tree : Tree} {gs : List Tree} {en : ℕ}
    (h : ∀ t g, r1 t g en = r2 t g en) :
    easyRule r1 tree gs en = easyRule r2 tree gs en := by
  cases tree <;> simp [easyRule, h]

/-- Congruence for the slice phase: the recursive callee is only consulted
at energies strictly below a positive energy. -/
theorem sliceRule_congr {r1 r2 : Tree → List Tree → ℕ → Bool}
    {tree : Tree} {gs : List Tree} {energy : ℕ} (hpos : 0 < energy)
    (h : ∀ t g e, e < energy → r1 t g e = r2 t g e) :
    sliceRule r1 tree gs energy = sliceRule r2 tree gs energy := by
  unfold sliceRule
  refine any_congr_mem fun g hg => ?_
  cases g with
  | imp hypo conc =>
      exact h _ _ _ (Nat.sub_lt hpos (sliceCharge_pos _))
  | atom _ => rfl
  | and _ _ => rfl
  | or _ _ => rfl

/-- Congruence for the split phase: the recursive callee is only consulted
at energies strictly below a positive energy. -/
theorem splitRule_congr {r1 r2 : Tree → List Tree → ℕ → Bool}
    {tree : Tree} {gs : List Tree} {energy : ℕ} (hpos : 0 < energy)
    (h : ∀ t g e, e < energy → r1 t g e = r2 t g e) :
    splitRule r1 tree gs energy = splitRule r2 tree gs energy := by
  unfold splitRule
  refine any_congr_mem fun p hp => ?_
  obtain ⟨i, g⟩ := p
  cases g with
  | or lft rht =>
      exact all_congr_mem fun b _ =>
        h _ _ _ (splitEnergy_lt hpos)
  | atom _ => rfl
  | and _ _ => rfl
  | imp _ _ => rfl

/-- Fuel irrelevance: since every recursive call strictly decreases the
energy, any fuel at least the energy computes the same answer.  This is the
termination argument of the source made explicit: the recursion depth is
bounded by the energy. -/
theorem can_proveFuel_irrel :
    ∀ (f f' : ℕ) (t : Tree) (g : List Tree) (e : ℕ), e ≤ f → e ≤ f' →
      can_proveFuel f t g e = can_proveFuel f' t g e := by
  intro f
  induction f with
  | zero =>
      intro f' t g e hf _
      have he : e = 0 := Nat.le_zero.mp hf
      rw [he, can_proveFuel_zero_energy, can_proveFuel_zero_energy]
  | succ f ih =>
      intro f' t g e hf hf'
      by_cases he : e = 0
      · rw [he, can_proveFuel_zero_energy, can_proveFuel_zero_energy]
      · cases f' with
        | zero => omega
        | succ f'' =>
            rw [can_proveFuel, can_proveFuel, if_neg he, if_neg he]
            dsimp only
            have hpos : 0 < e := Nat.pos_of_ne_zero he
            have hcong : ∀ t' g' e', e' < e →
                can_proveFuel f t' g' e' = can_proveFuel f'' t' g' e' := by
              intro t' g' e' hlt
              exact ih f'' t' g' e' (by omega) (by omega)
            rw [easyRule_congr fun t' g' => hcong t' g' (e - 1) (by omega),
              sliceRule_congr hpos hcong, splitRule_congr hpos hcong]

/-- Monotonicity of the introduction-rule phase under a monotone recursive
callee (the working context is energy-independent). -/
theorem easyRule_mono {r1 r2 : Tree → List Tree → ℕ → Bool}
    {tree : Tree} {gs : List Tree} {en en' : ℕ}
    (h : ∀ t g, r1 t g en = true → r2 t g en' = true)
    (hr : easyRule r1 tree gs en = true) : easyRule r2 tree gs en' = true := by
  cases tree with
  | atom a => exact hr
  | imp hypo conc => exact h _ _ hr
  | or lft rht =>
      rcases Bool.or_eq_true _ _ |>.mp hr with h1 | h1
      · exact Bool.or_eq_true _ _ |>.mpr (Or.inl (h _ _ h1))
      · exact Bool.or_eq_true _ _ |>.mpr (Or.inr (h _ _ h1))
  | and fst snd =>
      rcases Bool.and_eq_true _ _ |>.mp hr with ⟨h1, h2⟩
      exact Bool.and_eq_true _ _ |>.mpr ⟨h _ _ h1, h _ _ h2⟩

/-- Monotonicity of the slice phase: the charge depends only on the
candidate list, so a larger energy yields a larger recursive budget. -/
theorem sliceRule_mono {r1 r2 : Tree → List Tree → ℕ → Bool}
    {tree : Tree} {gs : List Tree} {e e' : ℕ} (hee : e ≤ e')
    (h : ∀ t g a b, a ≤ b → r1 t g a = true → r2 t g b = true)
    (hr : sliceRule r1 tree gs e = true) : sliceRule r2 tree gs e' = true := by
  unfold sliceRule at hr ⊢
  refine any_mono_mem (fun g hg => ?_) hr
  cases g with
  | imp hypo conc => exact h _ _ _ _ (by omega)
  | atom _ => exact fun hh => by simp at hh
  | and _ _ => exact fun hh => by simp at hh
  | or _ _ => exact fun hh => by simp at hh

/-- Monotonicity of the split phase: the allocation branch taken for a
disjunct is energy-independent and the allocation itself is monotone. -/
theorem splitRule_mono {r1 r2 : Tree → List Tree → ℕ → Bool}
    {tree : Tree} {gs : List Tree} {e e' : ℕ} (hee : e ≤ e')
    (h : ∀ t g a b, a ≤ b → r1 t g a = true → r2 t g b = true)
    (hr : splitRule r1 tree gs e = true) : splitRule r2 tree gs e' = true := by
  unfold splitRule at hr ⊢
  refine any_mono_mem (fun p hp => ?_) hr
  obtain ⟨i, g⟩ := p
  cases g with
  | or lft rht =>
      exact all_mono_mem fun b _ =>
        h _ _ _ _ (splitEnergy_mono hee)
  | atom _ => exact fun hh => by simp at hh
  | and _ _ => exact fun hh => by simp at hh
  | imp _ _ => exact fun hh => by simp at hh

/-- Energy monotonicity of the fuel-indexed prover. -/
theorem can_proveFuel_mono :
    ∀ (f f' : ℕ) (t : Tree) (g : List Tree) (e e' : ℕ), f ≤ f' → e ≤ e' →
      can_proveFuel f t g e = true → can_proveFuel f' t g e' = true := by
  intro f
  induction f with
  | zero =>
      intro f' t g e e' _ _ ht
      rw [can_proveFuel] at ht
      cases ht
  | succ f ih =>
      intro f' t g e e' hf hee ht
      by_cases he : e = 0
      · rw [he, can_proveFuel_zero_energy] at ht
        cases ht
      · cases f' with
        | zero => omega
        | succ f'' =>
            have hf'' : f ≤ f'' := by omega
            have he' : e' ≠ 0 := by omega
            rw [can_proveFuel, if_neg he] at ht
            rw [can_proveFuel, if_neg he']
            have hmono : ∀ t' g' a b, a ≤ b →
                can_proveFuel f t' g' a = true →
                can_proveFuel f'' t' g' b = true :=
              fun t' g' a b hab => ih f'' t' g' a b hf'' hab
            rcases Bool.or_eq_true _ _ |>.mp ht with h1 | h1
            · rcases Bool.or_eq_true _ _ |>.mp h1 with h2 | h2
              · exact Bool.or_eq_true _ _ |>.mpr (Or.inl
                  (Bool.or_eq_true _ _ |>.mpr (Or.inl
                    (easyRule_mono (fun t' g' =>
                      hmono t' g' (e - 1) (e' - 1) (by omega)) h2))))
              · exact Bool.or_eq_true _ _ |>.mpr (Or.inl
                  (Bool.or_eq_true _ _ |>.mpr (Or.inr
                    (sliceRule_mono hee hmono h2))))
            · exact Bool.or_eq_true _ _ |>.mpr (Or.inr
                (splitRule_mono hee hmono h1))

/-- Every formula contains at least one atom: there are no nullary
connectives. -/
theorem atoms_nonempty (t : Tree) : t.atoms.Nonempty := by
  induction t with
  | atom a => exact ⟨a, Finset.mem_singleton_self a⟩
  | and l r ihl ihr => exact ihl.mono Finset.subset_union_left
  | or l r ihl ihr => exact ihl.mono Finset.subset_union_left
  | imp l r ihl ihr => exact ihl.mono Finset.subset_union_left

/-- Profile weights are nonnegative everywhere. -/
theorem atom_counts_nonneg (t : Tree) (k : Char) : 0 ≤ atom_counts t k := by
  induction t with
  | atom a =>
      dsimp [atom_counts]
      split <;> norm_num
  | and l r ihl ihr =>
      dsimp [atom_counts]
      have h1 : (0:ℚ) ≤ 1 * atom_counts l k := by linarith
      have h2 : (0:ℚ) ≤ 1 * atom_counts r k := by linarith
      linarith
  | or l r ihl ihr =>
      dsimp [atom_counts]
      have h1 : (0:ℚ) ≤ (1/2) * atom_counts l k := by linarith
      have h2 : (0:ℚ) ≤ (1/2) * atom_counts r k := by linarith
      linarith
  | imp l r ihl ihr =>
      dsimp [atom_counts]
      have h1 : (0:ℚ) ≤ (1/4) * atom_counts l k := by linarith
      have h2 : (0:ℚ) ≤ (3/4) * atom_counts r k := by linarith
      linarith

/-- Profile weights are strictly positive on the formula's atoms: the
tag-dependent weight pairs are all strictly positive. -/
theorem atom_counts_pos {t : Tree} {k : Char} (hk : k ∈ t.atoms) :
    0 < atom_counts t k := by
  induction t with
  | atom a =>
      have : k = a := Finset.mem_singleton.mp hk
      simp [atom_counts, this]
  | and l r ihl ihr =>
      dsimp [atom_counts]
      have hl := atom_counts_nonneg l k
      have hr := atom_counts_nonneg r k
      rcases Finset.mem_union.mp hk with h | h
      · have := ihl h; linarith
      · have := ihr h; linarith
  | or l r ihl ihr =>
      dsimp [atom_counts]
      have hl := atom_counts_nonneg l k
      have hr := atom_counts_nonneg r k
      rcases Finset.mem_union.mp hk with h | h
      · have := ihl h; linarith
      · have := ihr h; linarith
  | imp l r ihl ihr =>
      dsimp [atom_counts]
      have hl := atom_counts_nonneg l k
      have hr := atom_counts_nonneg r k
      rcases Finset.mem_union.mp hk with h | h
      · have := ihl h; linarith
      · have := ihr h; linarith

/-- Profile weights vanish off the formula's atoms: `Tree.atoms` is exactly
the key set of the dict built by `atom_counts`. -/
theorem atom_counts_eq_zero {t : Tree} {k : Char} (hk : k ∉ t.atoms) :
    atom_counts t k = 0 := by
  induction t with
  | atom a =>
      have : ¬ k = a := fun h => hk (h ▸ Finset.mem_singleton_self a)
      simp [atom_counts, this]
  | and l r ihl ihr =>
      rw [Tree.atoms, Finset.mem_union] at hk
      push_neg at hk
      dsimp [atom_counts]
      rw [ihl hk.1, ihr hk.2]
      ring
  | or l r ihl ihr =>
      rw [Tree.atoms, Finset.mem_union] at hk
      push_neg at hk
      dsimp [atom_counts]
      rw [ihl hk.1, ihr hk.2]
      ring
  | imp l r ihl ihr =>
      rw [Tree.atoms, Finset.mem_union] at hk
      push_neg at hk
      dsimp [atom_counts]
      rw [ihl hk.1, ihr hk.2]
      ring

/-- On the profiles produced by `atom_counts` the key union is never empty,
so the division inside `count_overlap` is never a division by zero. -/
theorem count_overlap_isSome (t g : Tree) :
    (count_overlap (atom_counts t) t.atoms (atom_counts g) g.atoms).isSome =
      true := by
  unfold count_overlap
  have h : (t.atoms ∪ g.atoms).card ≠ 0 := by
    intro h0
    rcases atoms_nonempty t with ⟨k, hk⟩
    have : k ∈ t.atoms ∪ g.atoms := Finset.mem_union_left _ hk
    rw [Finset.card_eq_zero.mp h0] at this
    simp at this
  rw [if_neg h]
  rfl

/-- Characterization of the slice phase: it succeeds exactly when some
hypothesis `hypo -> conc` with `conc` structurally matching the goal is in
the list and the recursive call on `hypo`, against the unchanged hypothesis
list, with energy reduced by 1 when there is exactly one candidate and by 2
otherwise, succeeds. -/
theorem sliceRule_eq_true (recur : Tree → List Tree → ℕ → Bool) (tree : Tree)
    (gs : List Tree) (energy : ℕ) :
    sliceRule recur tree gs energy = true ↔
      ∃ hypo conc, Tree.imp hypo conc ∈ gs ∧ conc.matches tree = true ∧
        recur hypo gs
          (energy - (if (sliceCands tree gs).length = 1 then 1 else 2)) =
          true := by
  unfold sliceRule
  constructor
  · intro h
    rcases List.any_eq_true.mp h with ⟨g, hg, hcall⟩
    cases g with
    | imp hypo conc =>
        rcases List.mem_filter.mp hg with ⟨hmem, hfilt⟩
        exact ⟨hypo, conc, hmem, by simpa using hfilt, hcall⟩
    | atom _ => simp at hcall
    | and _ _ => simp at hcall
    | or _ _ => simp at hcall
  · intro ⟨hypo, conc, hmem, hmatch, hcall⟩
    refine List.any_eq_true.mpr ⟨Tree.imp hypo conc, ?_, hcall⟩
    exact List.mem_filter.mpr ⟨hmem, by simpa using hmatch⟩

/-- Characterization of the split phase: it succeeds exactly when some
position `i` of the list holds a disjunction whose two disjuncts, each
prepended to the list with position `i` removed and given its
overlap-dependent energy allocation, both recursively succeed. -/
theorem splitRule_eq_true (recur : Tree → List Tree → ℕ → Bool) (tree : Tree)
    (gs : List Tree) (energy : ℕ) :
    splitRule recur tree gs energy = true ↔
      ∃ i lft rht, ∃ h : i < gs.length, gs.get ⟨i, h⟩ = Tree.or lft rht ∧
        ∀ b ∈ [lft, rht],
          recur tree (b :: gs.eraseIdx i) (splitEnergy tree b energy) =
            true := by
  unfold splitRule
  constructor
  · intro h
    rcases List.any_eq_true.mp h with ⟨p, hp, hcall⟩
    rcases List.mem_filter.mp hp with ⟨hmem, _⟩
    obtain ⟨i, g⟩ := p
    have hig := List.mem_enum hmem
    cases g with
    | or lft rht =>
        rcases hig with ⟨hlt, hget⟩
        refine ⟨i, lft, rht, hlt, ?_, ?_⟩
        · rw [List.get_eq_getElem]
          exact hget.symm
        · exact List.all_eq_true.mp hcall
    | atom _ => simp at hcall
    | and _ _ => simp at hcall
    | imp _ _ => simp at hcall
  · intro ⟨i, lft, rht, hlt, hget, hall⟩
    refine List.any_eq_true.mpr ⟨(i, Tree.or lft rht), ?_, ?_⟩
    · refine List.mem_filter.mpr ⟨?_, rfl⟩
      have hl2 : i < gs.enum.length := by simpa using hlt
      have hval : gs.enum[i] = (i, Tree.or lft rht) := by
        rw [List.getElem_enum]
        rw [List.get_eq_getElem] at hget
        rw [hget]
      exact hval ▸ List.getElem_mem hl2
    · exact List.all_eq_true.mpr hall

/-!
Claim theorems.  Each theorem below formalises one claim of the
specification about `deduce.py`, as recorded in the accompanying results.
-/

/-- C1.  Soundness of positive answers: whenever `can_prove` answers `true`,
the goal is derivable from the hypotheses in intuitionistic propositional
logic (natural deduction `Derives`); since `Derives` only consults
membership in the hypothesis list, no permutation of the hypotheses can make
`can_prove` accept an underivable goal. -/
theorem can_prove_sound (g : Tree) (hs hs' : List Tree) (e : ℕ)
    (hperm : hs'.Perm hs) (h : can_prove g hs' e = true) : Derives hs g :=
  (can_proveFuel_sound e g hs' e h).weaken fun _ hx => hperm.mem_iff.mp hx

/-- Witness for C1 at a concrete input. -/
theorem can_prove_sound_witness :
    can_prove (.atom 'a') [.atom 'a'] 1 = true ∧
    Derives [.atom 'a'] (.atom 'a') :=
  ⟨by decide,
    can_prove_sound (.atom 'a') [.atom 'a'] [.atom 'a'] 1 (List.Perm.refl _)
      (by decide)⟩

/-- C2.  No double-negation elimination: the goal `a` is not provable from
the double negation `(a -> F) -> F` with energy 10. -/
theorem no_double_negation_elim :
    can_prove (.atom 'a')
      [.imp (.imp (.atom 'a') (.atom 'F')) (.atom 'F')] 10 = false := by
  decide

/-- C3.  Termination via strictly decreasing energy: a call with zero energy
returns false immediately, and because every recursive call strictly
decreases the energy (introduction rules pass `energy - 1`, slice passes
`energy - 1` or `energy - 2`, splits pass `floor(energy*2/3)` or
`floor(energy*1/3)`), recursion depth is bounded by the energy: any fuel at
least the energy computes the same total function. -/
theorem can_prove_terminates (t : Tree) (gs : List Tree) (e f : ℕ)
    (h : e ≤ f) :
    can_proveFuel f t gs e = can_prove t gs e ∧ can_prove t gs 0 = false :=
  ⟨can_proveFuel_irrel f e t gs e h le_rfl, can_proveFuel_zero_energy 0 t gs⟩

/-- Witness for C3 at a concrete input. -/
theorem can_prove_terminates_witness :
    can_proveFuel 7 (.atom 'p') [.atom 'q'] 4 =
      can_prove (.atom 'p') [.atom 'q'] 4 ∧
    can_prove (.atom 'p') [.atom 'q'] 0 = false :=
  can_prove_terminates _ _ 4 7 (by decide)

/-- C4.  Energy monotonicity: a goal provable within some energy stays
provable at any larger energy. -/
theorem can_prove_mono (g : Tree) (hs : List Tree) (e e' : ℕ) (hee : e ≤ e')
    (h : can_prove g hs e = true) : can_prove g hs e' = true :=
  can_proveFuel_mono e e' g hs e e' hee hee h

/-- Witness for C4 at a concrete input. -/
theorem can_prove_mono_witness :
    can_prove (.atom 'b') [.atom 'b'] 1 = true ∧
    can_prove (.atom 'b') [.atom 'b'] 3 = true :=
  ⟨by decide, can_prove_mono _ _ 1 3 (by decide) (by decide)⟩

/-- C5 counterexample.  The relevance sort does not break ties by original
order: with goal `a` and the (flattening-invariant) hypothesis list
`[b, c]`, both hypotheses score equally against the goal, yet the sorted
order used by the prover is `[c, b]`, the reverse of the original order. -/
theorem sort_tie_break_cex :
    overlapScore (.atom 'a') (.atom 'b') =
      overlapScore (.atom 'a') (.atom 'c') ∧
    flattenGivens [.atom 'b', .atom 'c'] = [.atom 'b', .atom 'c'] ∧
    sortGivens (.atom 'a') (flattenGivens [.atom 'b', .atom 'c']) =
      [.atom 'c', .atom 'b'] := by
  refine ⟨?_, ?_, ?_⟩ <;> with_unfolding_all rfl

/-- C5 as amended.  The hypotheses are sorted by descending overlap score
with ties between equal-scoring hypotheses broken by their original
position in reverse (the later hypothesis first): the sorted scored list is
pairwise ordered by strictly larger score or equal score and larger or equal
original index, and projecting the formulas back out permutes the input
list. -/
theorem sortGivens_ordering (tree : Tree) (givens : List Tree) :
    (sortGivens tree givens).Perm givens ∧
    (List.insertionSort sortRel (scoredGivens tree givens)).Pairwise
      (fun a b => b.1 < a.1 ∨ (a.1 = b.1 ∧ b.2.1 ≤ a.2.1)) ∧
    sortGivens tree givens =
      (List.insertionSort sortRel (scoredGivens tree givens)).map
        fun p => p.2.2 :=
  ⟨sortGivens_perm tree givens, List.sorted_insertionSort sortRel _, rfl⟩

/-- C6 counterexample.  On two empty profiles, `count_overlap` is not
defined (the Python code raises `ZeroDivisionError`; the embedding returns
`none`). -/
theorem count_overlap_empty_cex :
    (count_overlap (fun _ => 0) (∅ : Finset Char) (fun _ => 0) ∅).isSome =
      false := by
  rfl

/-- C6 as amended.  Applied to two empty atom profiles, `count_overlap`
fails with a division-by-zero error (modelled as `none`) rather than
yielding 0; the prover never reaches this case since formula profiles are
nonempty. -/
theorem count_overlap_empty :
    count_overlap (fun _ => 0) (∅ : Finset Char) (fun _ => 0) ∅ = none := by
  rfl

/-- C7.  Division by zero is unreachable from the prover: every formula's
profile has a nonempty key set, carries strictly positive weight exactly on
its atoms, and consequently every `count_overlap` call made by `can_prove`
(always on two formula profiles) has a nonempty key union and returns a
value. -/
theorem atom_counts_profile (t : Tree) :
    t.atoms.Nonempty ∧
    (∀ k ∈ t.atoms, 0 < atom_counts t k) ∧
    (∀ k, k ∉ t.atoms → atom_counts t k = 0) ∧
    ∀ g : Tree,
      (count_overlap (atom_counts t) t.atoms (atom_counts g) g.atoms).isSome
        = true :=
  ⟨atoms_nonempty t, fun _ hk => atom_counts_pos hk,
    fun _ hk => atom_counts_eq_zero hk, fun g => count_overlap_isSome t g⟩

/-- Witness for C7 at a concrete input. -/
theorem atom_counts_profile_witness :
    (Tree.atom 'a').atoms.Nonempty ∧
    0 < atom_counts (.atom 'a') 'a' ∧
    atom_counts (.atom 'a') 'b' = 0 ∧
    (count_overlap (atom_counts (.atom 'a')) (Tree.atom 'a').atoms
      (atom_counts (.atom 'b')) (Tree.atom 'b').atoms).isSome = true :=
  ⟨(atom_counts_profile (.atom 'a')).1,
   (atom_counts_profile (.atom 'a')).2.1 'a' (by decide),
   (atom_counts_profile (.atom 'a')).2.2.1 'b' (by decide),
   (atom_counts_profile (.atom 'a')).2.2.2 (.atom 'b')⟩

/-- C8.  The case-split rule: the split phase succeeds exactly when some
disjunctive hypothesis, removed from the list, has both of its disjuncts
succeed recursively, each disjunct prepended to the remaining hypotheses
with energy `floor(energy*2/3)` when its overlap with the goal exceeds
`0.75` and `floor(energy*1/3)` otherwise; a failed disjunct abandons only
that disjunction. -/
theorem split_rule_characterization (recur : Tree → List Tree → ℕ → Bool)
    (tree : Tree) (gs : List Tree) (energy : ℕ) :
    splitRule recur tree gs energy = true ↔
      ∃ i lft rht, ∃ h : i < gs.length, gs.get ⟨i, h⟩ = Tree.or lft rht ∧
        ∀ b ∈ [lft, rht],
          recur tree (b :: gs.eraseIdx i) (splitEnergy tree b energy) =
            true :=
  splitRule_eq_true recur tree gs energy

/-- Witness for C8 at a concrete input. -/
theorem split_rule_characterization_witness :
    splitRule (fun _ _ _ => true) (.atom 'a')
        [.or (.atom 'b') (.atom 'c')] 3 = true ↔
      ∃ i lft rht,
        ∃ h : i < ([Tree.or (.atom 'b') (.atom 'c')] : List Tree).length,
          ([Tree.or (.atom 'b') (.atom 'c')] : List Tree).get ⟨i, h⟩ =
              Tree.or lft rht ∧
            ∀ b ∈ [lft, rht],
              (fun _ _ _ => true : Tree → List Tree → ℕ → Bool) (.atom 'a')
                  (b :: ([Tree.or (.atom 'b') (.atom 'c')] :
                    List Tree).eraseIdx i)
                  (splitEnergy (.atom 'a') b 3) = true :=
  split_rule_characterization _ _ _ 3

/-- C9.  The slice (modus ponens) rule: the slice phase succeeds exactly
when some hypothesis `hypo -> conc` whose conclusion structurally matches
the goal has its premise recursively provable from the unchanged hypothesis
list (the implication is not consumed), at energy reduced by 1 when there is
exactly one such candidate and by 2 otherwise. -/
theorem slice_rule_characterization (recur : Tree → List Tree → ℕ → Bool)
    (tree : Tree) (gs : List Tree) (energy : ℕ) :
    sliceRule recur tree gs energy = true ↔
      ∃ hypo conc, Tree.imp hypo conc ∈ gs ∧ conc.matches tree = true ∧
        recur hypo gs
          (energy - (if (sliceCands tree gs).length = 1 then 1 else 2)) =
          true :=
  sliceRule_eq_true recur tree gs energy

/-- Witness for C9 at a concrete input. -/
theorem slice_rule_characterization_witness :
    sliceRule (fun _ _ _ => true) (.atom 'a')
        [.imp (.atom 'b') (.atom 'a')] 5 = true ↔
      ∃ hypo conc,
        Tree.imp hypo conc ∈ ([Tree.imp (.atom 'b') (.atom 'a')] :
            List Tree) ∧
          conc.matches (.atom 'a') = true ∧
          (fun _ _ _ => true : Tree → List Tree → ℕ → Bool) hypo
            [Tree.imp (.atom 'b') (.atom 'a')]
            (5 - (if (sliceCands (.atom 'a')
                [Tree.imp (.atom 'b') (.atom 'a')]).length = 1
              then 1 else 2)) = true :=
  slice_rule_characterization _ _ _ 5

/-- C10.  End-to-end scenario: the goal parsed from `(a+b)->(b&c)` follows,
with energy 10, from the hypotheses parsed from `(d&c)+(e&c)` and `a->b`,
in that order. -/
theorem example_problem_end_to_end :
    ((tree_from_str "(a+b)->(b&c)").bind fun goal =>
      (tree_from_str "(d&c)+(e&c)").bind fun h1 =>
        (tree_from_str "a->b").map fun h2 => can_prove goal [h1, h2] 10) =
      some true := by
  with_unfolding_all rfl

end Deduce
